import Mathlib

/-!
Verification of the `url-search` query-parameter collection
(`src/url-search.ts`, class `URLSearch`).

Shallow embedding conventions:
* JS strings are modelled as `List Char` (`Str`).
* The internal `secret` object (`{ [key: string]: string[] }`) is modelled
  as an association list in own-property creation order (`State`).  Key
  iteration (`for ... in` with `hasOwnProperty`) follows the ECMAScript
  own-property order: canonical array-index keys first in ascending numeric
  order, then the remaining string keys in creation order (`ownKeysOrder`).
* The object inherits from `Object.prototype`: property reads and the `in`
  operator see its members (`protoNames`), so `append`'s truthiness check
  skips array creation at such names and the following `.push` throws
  `TypeError`, `has` reports them present, and `get` yields `undefined`
  there.  Two prototype effects stay outside the model: assigning
  `'__proto__'` in `set` actually replaces the prototype (observably
  `get`/`getAll` still return the stored value, which is what the claims
  read), and `getAll` at an inherited-only name would throw from `.slice`
  (the claims read `getAll` only at own or absent plain names).
* Thrown errors (`URIError` from `decodeURIComponent`, `TypeError` from
  pushing onto an inherited member) are modelled by `Option`: `none` is a
  thrown error, so `append` and string construction return `Option State`.
* JS `undefined` / `null` / string results of `get` are the three
  constructors of `JSValue`.
-/

namespace URLSearch

/-- JS strings, modelled as their sequence of Unicode scalar values. -/
abbrev Str := List Char

/-- The internal `secret` mapping, in own-property creation order. -/
abbrev State := List (Str × List Str)

/-- Result type of `get`: a JS value that is `null`, `undefined` or a string. -/
inductive JSValue where
  | null : JSValue
  | undef : JSValue
  | str : Str → JSValue
deriving DecidableEq, Repr

/-- The `values` parameter of `append`: `string | string[]`. -/
inductive Values where
  | str : Str → Values
  | arr : List Str → Values
deriving DecidableEq, Repr

/-- JS truthiness test of the `values` parameter: only the empty string is
falsy; an array (even empty) is truthy. -/
def falsyVals : Values → Bool
  | .str s => s.isEmpty
  | .arr _ => false

/-- Value of a hexadecimal digit, as accepted by `decodeURIComponent`. -/
def hexVal (c : Char) : Option Nat :=
  if '0' ≤ c ∧ c ≤ '9' then some (c.toNat - 48)
  else if 'A' ≤ c ∧ c ≤ 'F' then some (c.toNat - 55)
  else if 'a' ≤ c ∧ c ≤ 'f' then some (c.toNat - 87)
  else none

/-- Parse one complete percent-escape (the characters after the first
`'%'`): the UTF-8 sequence of one code point, with every continuation byte
itself written as a `%XX` escape.  Returns the code point and the
remaining input; `none` is a malformed sequence (truncated escape, non-hex
digit, invalid leading/continuation byte, overlong form, surrogate or
out-of-range code point). -/
def pctDecodeOne : List Char → Option (Nat × List Char)
  | h1 :: h2 :: rest2 =>
    match hexVal h1, hexVal h2 with
    | some a, some b =>
      if 16 * a + b < 128 then some (16 * a + b, rest2)
      else if 16 * a + b < 194 then none
      else if 16 * a + b < 224 then
        match rest2 with
        | '%' :: g1 :: g2 :: rest3 =>
          match hexVal g1, hexVal g2 with
          | some a1, some b1 =>
            if 128 ≤ 16 * a1 + b1 ∧ 16 * a1 + b1 < 192 then
              some ((16 * a + b - 192) * 64 + (16 * a1 + b1 - 128), rest3)
            else none
          | _, _ => none
        | _ => none
      else if 16 * a + b < 240 then
        match rest2 with
        | '%' :: g1 :: g2 :: '%' :: g3 :: g4 :: rest4 =>
          match hexVal g1, hexVal g2, hexVal g3, hexVal g4 with
          | some a1, some b1, some a2, some b2 =>
            if 128 ≤ 16 * a1 + b1 ∧ 16 * a1 + b1 < 192 ∧
                128 ≤ 16 * a2 + b2 ∧ 16 * a2 + b2 < 192 then
              if 2048 ≤ (16 * a + b - 224) * 4096 + (16 * a1 + b1 - 128) * 64 +
                    (16 * a2 + b2 - 128) ∧
                  ((16 * a + b - 224) * 4096 + (16 * a1 + b1 - 128) * 64 +
                    (16 * a2 + b2 - 128) < 55296 ∨
                   57343 < (16 * a + b - 224) * 4096 + (16 * a1 + b1 - 128) * 64 +
                    (16 * a2 + b2 - 128)) then
                some ((16 * a + b - 224) * 4096 + (16 * a1 + b1 - 128) * 64 +
                  (16 * a2 + b2 - 128), rest4)
              else none
            else none
          | _, _, _, _ => none
        | _ => none
      else if 16 * a + b < 245 then
        match rest2 with
        | '%' :: g1 :: g2 :: '%' :: g3 :: g4 :: '%' :: g5 :: g6 :: rest5 =>
          match hexVal g1, hexVal g2, hexVal g3, hexVal g4, hexVal g5, hexVal g6 with
          | some a1, some b1, some a2, some b2, some a3, some b3 =>
            if 128 ≤ 16 * a1 + b1 ∧ 16 * a1 + b1 < 192 ∧
                128 ≤ 16 * a2 + b2 ∧ 16 * a2 + b2 < 192 ∧
                128 ≤ 16 * a3 + b3 ∧ 16 * a3 + b3 < 192 then
              if 65536 ≤ (16 * a + b - 240) * 262144 + (16 * a1 + b1 - 128) * 4096 +
                    (16 * a2 + b2 - 128) * 64 + (16 * a3 + b3 - 128) ∧
                  (16 * a + b - 240) * 262144 + (16 * a1 + b1 - 128) * 4096 +
                    (16 * a2 + b2 - 128) * 64 + (16 * a3 + b3 - 128) < 1114112 then
                some ((16 * a + b - 240) * 262144 + (16 * a1 + b1 - 128) * 4096 +
                  (16 * a2 + b2 - 128) * 64 + (16 * a3 + b3 - 128), rest5)
              else none
            else none
          | _, _, _, _, _, _ => none
        | _ => none
      else none
    | _, _ => none
  | _ => none

/-- Fuel-driven loop of `decodeURIComponent`; one unit of fuel is spent
per input character, so `l.length` fuel always suffices
(`pctDecodeOne` consumes at least two further characters). -/
def decESteps : Nat → List Char → Option (List Char)
  | _, [] => some []
  | 0, _ :: _ => none
  | fuel + 1, c :: rest =>
    if c = '%' then
      match pctDecodeOne rest with
      | none => none
      | some (cp, rest2) => (decESteps fuel rest2).map (fun t => Char.ofNat cp :: t)
    else
      (decESteps fuel rest).map (fun t => c :: t)

/-- ECMAScript `decodeURIComponent`: percent-escapes are decoded as UTF-8;
a malformed escape sequence throws `URIError`, modelled as `none`. -/
def decodeEscaped (l : List Char) : Option (List Char) :=
  decESteps l.length l

/-- The decode rule of `append` (line 66 of the source):
`decodeURIComponent((val + '').replace(/\+/g, ''))` — every `'+'` is
removed (replaced by the empty string), then the result is percent-decoded. -/
def decodeVal (v : Str) : Option Str :=
  decodeEscaped (v.filter (fun c => c != '+'))

/-- Characters `encodeURIComponent` leaves unescaped
(`A-Z a-z 0-9 - _ . ! ~ * ' ( )`). -/
def uriUnreserved (c : Char) : Bool :=
  c.isAlphanum || c == '-' || c == '_' || c == '.' || c == '!' ||
    c == '~' || c == '*' || c == '\'' || c == '(' || c == ')'

/-- Upper-case hexadecimal digit of a value below 16. -/
def hexDigitUpper (n : Nat) : Char :=
  if n < 10 then Char.ofNat (48 + n) else Char.ofNat (55 + n)

/-- `%XX` escape of one byte, upper-case as produced by `encodeURIComponent`. -/
def pctByte (b : Nat) : List Char :=
  ['%', hexDigitUpper (b / 16), hexDigitUpper (b % 16)]

/-- UTF-8 bytes of a Unicode scalar value. -/
def utf8Bytes (n : Nat) : List Nat :=
  if n < 128 then [n]
  else if n < 2048 then [192 + n / 64, 128 + n % 64]
  else if n < 65536 then [224 + n / 4096, 128 + n / 64 % 64, 128 + n % 64]
  else [240 + n / 262144, 128 + n / 4096 % 64, 128 + n / 64 % 64, 128 + n % 64]

/-- Encoding of one character by `encodeURIComponent`. -/
def encChar (c : Char) : List Char :=
  if uriUnreserved c then [c] else ((utf8Bytes c.toNat).map pctByte).flatten

/-- ECMAScript `encodeURIComponent` (total here: `Str` holds Unicode scalar
values, so the lone-surrogate error case cannot arise). -/
def encodeURIComponent (s : Str) : Str :=
  (s.map encChar).flatten

/-- Replacement for the five re-encoded punctuation characters. -/
def pctPunct (c : Char) : List Char :=
  if c == '!' then ['%', '2', '1']
  else if c == '\'' then ['%', '2', '7']
  else if c == '(' then ['%', '2', '8']
  else if c == ')' then ['%', '2', '9']
  else ['%', '7', 'E']

/-- Is `c` matched by the character class `[!'()~]` of the replace regex? -/
def isPunct (c : Char) : Bool :=
  c == '!' || c == '\'' || c == '(' || c == ')' || c == '~'

/-- One left-to-right pass of
`.replace(/[!'\(\)~]|%20|%00/g, match => replacePairs[match])`
(lines 234-236 of the source). -/
def encReplace : List Char → List Char
  | [] => []
  | '%' :: d1 :: d2 :: rest =>
    if d1 = '2' ∧ d2 = '0' then '+' :: encReplace rest
    else if d1 = '0' ∧ d2 = '0' then Char.ofNat 0 :: encReplace rest
    else '%' :: encReplace (d1 :: d2 :: rest)
  | c :: rest =>
    if isPunct c then pctPunct c ++ encReplace rest
    else c :: encReplace rest

/-- The private `encodeURI` method of the source class. -/
def encodeURI (s : Str) : Str :=
  encReplace (encodeURIComponent s)

/-- Spec-side re-encoding step: each literal `! ' ( ) ~` becomes its
percent-escape. -/
def reencodePunct (s : Str) : Str :=
  (s.map (fun c => if isPunct c then pctPunct c else [c])).flatten

/-- Left-to-right, non-overlapping replacement of one three-character
pattern, as JS `replace` with a global regex performs. -/
def replace3 (p1 p2 p3 : Char) (r : List Char) : List Char → List Char
  | a :: b :: c :: rest =>
    if a = p1 ∧ b = p2 ∧ c = p3 then r ++ replace3 p1 p2 p3 r rest
    else a :: replace3 p1 p2 p3 r (b :: c :: rest)
  | l => l

/-- Spec-side encode transform, following the words of the specification:
apply standard percent-encoding, then re-encode the literals `! ' ( ) ~`
to `%21 %27 %28 %29 %7E`, then replace every `%20` with `+` and every
`%00` with the raw NUL character. -/
def specEncode (s : Str) : Str :=
  replace3 '%' '0' '0' [Char.ofNat 0] (replace3 '%' '2' '0' ['+']
    (reencodePunct (encodeURIComponent s)))

/-- Upper-case hexadecimal digit character, as emitted in `%XX` escapes. -/
def hexUp (c : Char) : Bool :=
  ('0' ≤ c && c ≤ '9') || ('A' ≤ c && c ≤ 'F')

/-- A chunk of `encodeURIComponent` output: one unreserved character, or
one upper-case-hex `%XX` escape. -/
def goodChunk (l : List Char) : Prop :=
  (∃ c, l = [c] ∧ uriUnreserved c = true) ∨
  (∃ d1 d2, l = ['%', d1, d2] ∧ hexUp d1 = true ∧ hexUp d2 = true)

/-- A chunk shape the replace passes cannot cut across: a single non-`%`
character, or a three-character escape whose digits are not `%`. -/
def goodChunk2 (l : List Char) : Prop :=
  (∃ c, l = [c] ∧ c ≠ '%') ∨
  (∃ d1 d2, l = ['%', d1, d2] ∧ d1 ≠ '%' ∧ d2 ≠ '%')

/-- Per-chunk action of the single regex pass of the `encodeURI` method. -/
def chunkT : List Char → List Char
  | [c] => if isPunct c then pctPunct c else [c]
  | [a, b, c] =>
    if a = '%' then
      if b = '2' ∧ c = '0' then ['+']
      else if b = '0' ∧ c = '0' then [Char.ofNat 0]
      else [a, b, c]
    else [a, b, c]
  | l => l

/-- Per-chunk action of the spec-side punctuation re-encoding. -/
def chunkP : List Char → List Char
  | [c] => if isPunct c then pctPunct c else [c]
  | l => l

/-- First value associated with a key in the internal mapping
(own-property lookup). -/
def findVals : State → Str → Option (List Str)
  | [], _ => none
  | (k, vs) :: rest, n => if k = n then some vs else findVals rest n

/-- The own property names of `Object.prototype`, inherited by the plain
object `this.secret = {}`.  A property read at one of these names finds a
truthy member (a function, or the prototype object for `__proto__`) even
when no own key exists, and `in` reports them present. -/
def protoNames : List Str :=
  ["constructor".toList, "hasOwnProperty".toList, "isPrototypeOf".toList,
   "propertyIsEnumerable".toList, "toLocaleString".toList, "toString".toList,
   "valueOf".toList, "__defineGetter__".toList, "__defineSetter__".toList,
   "__lookupGetter__".toList, "__lookupSetter__".toList, "__proto__".toList]

/-- Truthiness of the property read `this.secret[name]`: an own key holds
an array (truthy even when empty); otherwise an `Object.prototype` member
is found (all truthy); otherwise the read is `undefined` (falsy). -/
def propTruthy (st : State) (n : Str) : Bool :=
  (findVals st n).isSome || decide (n ∈ protoNames)

/-- `if (!this.secret[name]) this.secret[name] = []` (lines 61-63): a
fresh key is created at the end of the creation order — but only when the
property read is falsy, so an inherited `Object.prototype` member (e.g.
`'constructor'`) suppresses the creation. -/
def ensureKey (st : State) (n : Str) : State :=
  if propTruthy st n then st else st ++ [(n, [])]

/-- `this.secret[name].push(v)`: extend the value list of an existing key. -/
def pushVal : State → Str → Str → State
  | [], _, _ => []
  | (k, vs) :: rest, n, v =>
    if k = n then (k, vs ++ [v]) :: rest else (k, vs) :: pushVal rest n v

/-- `this.secret[name] = vs`: replace the value list of an existing key in
place, or create the key at the end of the creation order. -/
def setKey : State → Str → List Str → State
  | [], n, vs => [(n, vs)]
  | (k, w) :: rest, n, vs =>
    if k = n then (k, vs) :: rest else (k, w) :: setKey rest n vs

/-- Loop body of `append`: `this.secret[name].push(decodeURIComponent(…))`
per value.  The argument is evaluated first, so a decode error
(`URIError`) aborts; then, when `name` is not an own key (the creation
was suppressed by an inherited member), `.push` of the inherited value is
`undefined` and the call throws `TypeError`.  Both thrown errors are
modelled as `none`. -/
def appendVals : State → Str → List Str → Option State
  | st, _, [] => some st
  | st, n, v :: rest =>
    match decodeVal v with
    | none => none
    | some d =>
      if (findVals st n).isSome then appendVals (pushVal st n d) n rest
      else none

/-- `append(name, values)` (lines 56-68):  no-op when `name` or `values` is
falsy; otherwise create the key if missing and push each decoded value. -/
def append (st : State) (name : Str) (values : Values) : Option State :=
  if name.isEmpty || falsyVals values then some st
  else
    appendVals (ensureKey st name) name
      (match values with | .str s => [s] | .arr l => l)

/-- `delete(name)` (lines 76-79). -/
def delete (st : State) (n : Str) : State :=
  st.filter (fun p => p.1 != n)

/-- `get(name)` (lines 87-89): `name in secret ? secret[name][0] : null`.
`in` consults the prototype chain, so at an inherited-only name the read
yields the inherited member and indexing it gives `undefined`; indexing an
own empty array also yields `undefined`. -/
def get (st : State) (n : Str) : JSValue :=
  match findVals st n with
  | none => if n ∈ protoNames then .undef else .null
  | some [] => .undef
  | some (v :: _) => .str v

/-- `getAll(name)` (lines 97-99): a copy of the value list, or `[]`. -/
def getAll (st : State) (n : Str) : List Str :=
  (findVals st n).getD []

/-- `has(name)` (lines 107-109): `name in this.secret` — the `in`
operator walks the prototype chain, so an `Object.prototype` member name
counts as present even on an empty collection. -/
def has (st : State) (n : Str) : Bool :=
  (findVals st n).isSome || decide (n ∈ protoNames)

/-- `set(name, value)` (lines 119-122): `this.secret[name] = ['' + value]`
(the argument is stored stringified and raw, with no decode step). -/
def set (st : State) (n : Str) (v : Str) : State :=
  setKey st n [v]

/-- Digit-string value, for the canonical-array-index test. -/
def strToNat (s : Str) : Nat :=
  s.foldl (fun n c => n * 10 + (c.toNat - 48)) 0

/-- Is the key a canonical array-index string (`"0"`, or digits without a
leading zero, below 2^32 - 1)?  Such own keys are enumerated first, in
ascending numeric order, by ECMAScript `for ... in`. -/
def isArrayIndex : Str → Bool
  | [] => false
  | c :: rest =>
    (c.isDigit && rest.all Char.isDigit) && (rest.isEmpty || c != '0') &&
      decide (strToNat (c :: rest) < 4294967295)

/-- Numeric order on array-index keys. -/
def idxLe (a b : Str) : Prop := strToNat a ≤ strToNat b

instance : DecidableRel idxLe := fun a b => by unfold idxLe; infer_instance

instance : IsTotal Str idxLe := ⟨fun a b => Nat.le_total (strToNat a) (strToNat b)⟩

instance : IsTrans Str idxLe := ⟨fun _ _ _ h h' => Nat.le_trans h h'⟩

/-- `for (const name in this.secret)` with the `hasOwnProperty` guard:
own keys, canonical array indices first in ascending numeric order, then
the remaining keys in creation order. -/
def ownKeysOrder (st : State) : List Str :=
  List.insertionSort idxLe ((st.map Prod.fst).filter isArrayIndex) ++
    (st.map Prod.fst).filter (fun k => !isArrayIndex k)

/-- `keys()` (lines 148-157). -/
def keys (st : State) : List Str :=
  ownKeysOrder st

/-- The visit sequence of `forEach` (lines 130-141): names in `for-in`
order, and for each name its stored values in order; the callback receives
`(value, name)` — the pairs here are `(name, value)`. -/
def iterPairs (st : State) : List (Str × Str) :=
  (ownKeysOrder st).flatMap (fun n => (getAll st n).map (fun v => (n, v)))

/-- `values()` (lines 164-171): one entry per `forEach` visit. -/
def valuesList (st : State) : List Str :=
  (iterPairs st).map Prod.snd

/-- `entries()` (lines 178-184): `[name, value]` per `forEach` visit. -/
def entriesList (st : State) : List (Str × Str) :=
  iterPairs st

/-- JS `Array.prototype.join` with a one-character separator. -/
def jsJoin (sep : Char) : List Str → Str
  | [] => []
  | [p] => p
  | p :: rest => p ++ sep :: jsJoin sep rest

/-- `toString()` (lines 191-198): encoded `name=value` segments in
`forEach` order, joined by `&`. -/
def toString (st : State) : Str :=
  jsJoin '&' ((iterPairs st).map (fun p => encodeURI p.1 ++ '=' :: encodeURI p.2))

/-- UTF-16 code units of a string, the units JS string comparison uses. -/
def utf16Units (s : Str) : List Nat :=
  s.flatMap (fun c =>
    if c.toNat < 65536 then [c.toNat]
    else [55296 + (c.toNat - 65536) / 1024, 56320 + (c.toNat - 65536) % 1024])

/-- Lexicographic order on code-unit sequences. -/
def lexLeN : List Nat → List Nat → Bool
  | [], _ => true
  | _ :: _, [] => false
  | a :: as, b :: bs => if a < b then true else if b < a then false else lexLeN as bs

/-- The default `Array.prototype.sort` order on strings: lexicographic by
UTF-16 code units (this equals code-point order on strings of BMP
characters). -/
def strLe (a b : Str) : Prop := lexLeN (utf16Units a) (utf16Units b) = true

instance : DecidableRel strLe := fun a b => by unfold strLe; infer_instance

instance : IsTotal Str strLe := by
  constructor
  intro a b
  have h : ∀ x y : List Nat, lexLeN x y = true ∨ lexLeN y x = true := by
    intro x
    induction x with
    | nil => intro y; left; rfl
    | cons u us ih =>
      intro y
      cases y with
      | nil => right; rfl
      | cons v vs =>
        by_cases huv : u < v
        · left; simp [lexLeN, huv]
        · by_cases hvu : v < u
          · right; simp [lexLeN, hvu]
          · rcases ih vs with h1 | h1
            · left; simp [lexLeN, huv, hvu, h1]
            · right; simp [lexLeN, huv, hvu, h1]
  exact h (utf16Units a) (utf16Units b)

instance : IsTrans Str strLe := by
  constructor
  intro a b c hab hbc
  unfold strLe at hab hbc ⊢
  have h : ∀ x y z : List Nat, lexLeN x y = true → lexLeN y z = true →
      lexLeN x z = true := by
    intro x
    induction x with
    | nil => intro y z _ _; rfl
    | cons u us ih =>
      intro y z hxy hyz
      cases y with
      | nil => simp [lexLeN] at hxy
      | cons v vs =>
        cases z with
        | nil => simp [lexLeN] at hyz
        | cons w ws =>
          simp only [lexLeN] at hxy hyz ⊢
          by_cases huv : u < v
          · by_cases hvw : v < w
            · simp [Nat.lt_trans huv hvw]
            · by_cases hwv : w < v
              · simp [hvw, hwv] at hyz
              · have hvw2 : v = w :=
                  Nat.le_antisymm (Nat.le_of_not_lt hwv) (Nat.le_of_not_lt hvw)
                subst hvw2
                simp [huv]
          · by_cases hvu : v < u
            · simp [huv, hvu] at hxy
            · have huv2 : u = v :=
                Nat.le_antisymm (Nat.le_of_not_lt hvu) (Nat.le_of_not_lt huv)
              subst huv2
              by_cases hvw : u < w
              · simp [hvw]
              · by_cases hwv : w < u
                · simp [hvw, hwv] at hyz
                · have hvw2 : u = w :=
                    Nat.le_antisymm (Nat.le_of_not_lt hwv) (Nat.le_of_not_lt hvw)
                  subst hvw2
                  simp only [hvw, hwv, if_false] at hxy hyz ⊢
                  exact ih vs ws hxy hyz
  exact h (utf16Units a) (utf16Units b) (utf16Units c) hab hbc

/-- `sort()` (lines 205-215): sort the key list, and rebuild `secret` by
assigning `temp[key] = this.secret[key].sort()` in that key order. -/
def sort (st : State) : State :=
  (List.insertionSort strLe (keys st)).map
    (fun k => (k, List.insertionSort strLe (getAll st k)))

/-- One character-based `split` as in JS `String.prototype.split`:
the result is never empty and `''.split(sep)` is `['']`. -/
def jsSplit (sep : Char) : Str → List Str
  | [] => [[]]
  | c :: rest =>
    if c = sep then [] :: jsSplit sep rest
    else
      match jsSplit sep rest with
      | h :: t => (c :: h) :: t
      | [] => [[c]]

/-- One pair of the constructor's string branch (lines 28-32):
`split = pair.split('='); this.append(split[0], split[1] || '')`. -/
def parsePair (st : State) (pair : Str) : Option State :=
  match jsSplit '=' pair with
  | [] => some st
  | name :: rest => append st name (.str (rest.headD []))

/-- Fold of `parsePair` over the `&`-separated pairs. -/
def parseLoop : List Str → State → Option State
  | [], st => some st
  | p :: rest, st =>
    match parsePair st p with
    | none => none
    | some st' => parseLoop rest st'

/-- `if (query.charAt(0) === '?') query = query.slice(1)` (lines 24-26). -/
def stripQuery (q : Str) : Str :=
  match q with
  | [] => []
  | c :: r => if c = '?' then r else c :: r

/-- The constructor's string branch (lines 22-32): strip one leading `?`,
split on `&`, feed each pair through `append`.  `none` models a thrown
`URIError`. -/
def parse (q : Str) : Option State :=
  parseLoop (jsSplit '&' (stripQuery q)) []

/-- The spec's §3 invariant: every present name maps to a non-empty value
sequence. -/
def Inv (st : State) : Prop := ∀ p ∈ st, p.2 ≠ []

instance (st : State) : Decidable (Inv st) := by unfold Inv; infer_instance

/-- Well-formedness a JS object enforces by construction: own keys are
distinct. -/
def WF (st : State) : Prop := (st.map Prod.fst).Nodup

/-- States reachable by the constructor and the mutating operations
(`sort` excluded, as claim C7 requires). -/
inductive Reachable : State → Prop where
  | empty : Reachable []
  | ofParse (q : Str) (st : State) : parse q = some st → Reachable st
  | appendStep (st : State) (n : Str) (vs : Values) (st' : State) :
      Reachable st → append st n vs = some st' → Reachable st'
  | setStep (st : State) (n v : Str) : Reachable st → Reachable (set st n v)
  | deleteStep (st : State) (n : Str) : Reachable st → Reachable (delete st n)

/-- Characters both `encodeURIComponent` and the replace pass leave
unchanged, and which the decode rule of `append` maps to themselves. -/
def safeChar (c : Char) : Bool :=
  c.isAlphanum || c == '-' || c == '_' || c == '.' || c == '*'

theorem findVals_setKey_self (st : State) (n : Str) (vs : List Str) :
    findVals (setKey st n vs) n = some vs := by
  induction st with
  | nil => simp [setKey, findVals]
  | cons p rest ih =>
    obtain ⟨k, w⟩ := p
    by_cases h : k = n
    · simp [setKey, h, findVals]
    · simp [setKey, h, findVals, ih]

/-- C9: `set(n, v)` replaces all prior values of `n` by the single raw
(stringified, undecoded) value: `getAll(n)` is exactly `[v]`, `get(n)` is
`v`, and — unlike `append`, which decodes `'%41'` to `'A'` — the stored
value is untouched. -/
theorem C9_set_replaces_with_raw_value :
    (∀ st n v, getAll (set st n v) n = [v] ∧ get (set st n v) n = JSValue.str v ∧
      (getAll (set st n v) n).length = 1) ∧
    getAll (set [] "n".toList "%41".toList) "n".toList = ["%41".toList] ∧
    append [] "n".toList (Values.str "%41".toList) = some [("n".toList, ["A".toList])] := by
  refine ⟨fun st n v => ?_, by decide, by decide⟩
  have h := findVals_setKey_self st n [v]
  refine ⟨?_, ?_, ?_⟩ <;> simp [getAll, get, set, h]

/-- C10: `set` has no falsy-name guard: `set('', v)` stores an entry under
the empty-string name (`has('')` is true, `get('')` is the stringified
value), while `append('', v)` is rejected by its guard and leaves the
collection unchanged for every shape of `v`. -/
theorem C10_set_empty_name_append_guard :
    (∀ st v, has (set st [] v) [] = true ∧ get (set st [] v) [] = JSValue.str v) ∧
    (∀ st vs, append st [] vs = some st) := by
  constructor
  · intro st v
    have h := findVals_setKey_self st [] [v]
    constructor <;> simp [has, get, set, h]
  · intro st vs
    simp [append]

/-- C1 is false on the code: parsing `'?name=pxy&version='` feeds
`append('version', '')` whose falsy-value guard drops the pair, so
`get('version')` is `null` (not `''`) and `has('version')` is `false`
(not `true`). -/
theorem C1_counterexample :
    parse "?name=pxy&version=".toList = some [("name".toList, ["pxy".toList])] ∧
    get [("name".toList, ["pxy".toList])] "version".toList = JSValue.null ∧
    has [("name".toList, ["pxy".toList])] "version".toList = false ∧
    JSValue.null ≠ JSValue.str [] := by decide

/-- C1 amended: a query-string pair whose value segment is empty or
missing is dropped entirely — `append` with the empty-string value is a
no-op for every state, and after `new Collection('?name=pxy&version=')`
(or with a bare `version` name) `get('version')` is `null` and
`has('version')` is `false`. -/
theorem C1_empty_value_pairs_dropped :
    (∀ st n, append st n (Values.str []) = some st) ∧
    (parse "?name=pxy&version=".toList).map
      (fun st => (get st "version".toList, has st "version".toList)) =
      some (JSValue.null, false) ∧
    (parse "?name=pxy&version".toList).map
      (fun st => (get st "version".toList, has st "version".toList)) =
      some (JSValue.null, false) := by
  refine ⟨fun st n => ?_, by decide, by decide⟩
  simp [append, falsyVals]

/-- C2 is a code bug: line 66 is `replace(/\+/g, '')`, so a literal `'+'`
in an appended value is deleted instead of becoming a space — the value
stored for `append('a', '1+2')` (or for parsing `'a=1+2'`) is `'12'`,
not the `'1 2'` the claim (and the polyfilled standard) requires. -/
theorem C2_plus_deleted_not_space :
    decodeVal "1+2".toList = some "12".toList ∧
    "12".toList ≠ "1 2".toList ∧
    append [] "a".toList (Values.str "1+2".toList) =
      some [("a".toList, ["12".toList])] ∧
    parse "a=1+2".toList = some [("a".toList, ["12".toList])] := by decide

/-- C3 is false on the code: `append('x', [])` passes the truthiness guard
(an empty array is truthy), creates `secret['x'] = []` and pushes nothing,
so an empty-sequence entry persists — `has('x')` flips to `true` and
`keys()` gains `'x'`, observably changing the collection. -/
theorem C3_counterexample :
    append [] "x".toList (Values.arr []) = some [("x".toList, [])] ∧
    has [("x".toList, [])] "x".toList = true ∧
    has ([] : State) "x".toList = false ∧
    keys [("x".toList, [])] = ["x".toList] ∧
    keys ([] : State) = [] ∧
    get [("x".toList, [])] "x".toList = JSValue.undef := by decide

theorem decESteps_no_pct (fuel : Nat) : ∀ l : List Char, l.length ≤ fuel →
    (∀ c ∈ l, c ≠ '%') → decESteps fuel l = some l := by
  induction fuel with
  | zero =>
    intro l hl _
    cases l with
    | nil => rfl
    | cons c rest => simp at hl
  | succ f ih =>
    intro l hl h
    cases l with
    | nil => rfl
    | cons c rest =>
      have hc : c ≠ '%' := h c (List.mem_cons_self c rest)
      have hr : decESteps f rest = some rest :=
        ih rest (by simp at hl; omega) (fun d hd => h d (List.mem_cons_of_mem c hd))
      simp only [decESteps]
      rw [if_neg hc, hr]
      rfl

theorem decodeEscaped_no_pct (l : List Char) (h : ∀ c ∈ l, c ≠ '%') :
    decodeEscaped l = some l :=
  decESteps_no_pct l.length l le_rfl h

theorem findVals_append_right (st : State) (n : Str) (vs : List Str)
    (h : findVals st n = none) : ∀ q, findVals (st ++ [(n, vs)]) q =
      if n = q then some vs else findVals st q := by
  induction st with
  | nil =>
    intro q
    simp [findVals]
  | cons p rest ih =>
    obtain ⟨k, w⟩ := p
    intro q
    simp only [findVals] at h
    by_cases hk : k = n
    · simp [hk] at h
    · have h2 : findVals rest n = none := by
        rw [if_neg hk] at h
        exact h
      by_cases hq : k = q
      · subst hq
        by_cases hnq : k = n
        · exact absurd hnq hk
        · simp [findVals, if_neg (Ne.symm hk), hnq]
      · simp only [List.cons_append, findVals, if_neg hq]
        exact ih h2 q

theorem mem_pushVal (st : State) (n v : Str) :
    ∀ p ∈ pushVal st n v, p ∈ st ∨ p.2 ≠ [] := by
  induction st with
  | nil => simp [pushVal]
  | cons q rest ih =>
    obtain ⟨k, w⟩ := q
    intro p hp
    by_cases h : k = n
    · simp only [pushVal, if_pos h] at hp
      rcases List.mem_cons.mp hp with rfl | hpr
      · right; simp
      · exact Or.inl (List.mem_cons_of_mem _ hpr)
    · simp only [pushVal, if_neg h] at hp
      rcases List.mem_cons.mp hp with rfl | hpr
      · exact Or.inl (List.mem_cons_self _ _)
      · rcases ih p hpr with hm | hne
        · exact Or.inl (List.mem_cons_of_mem _ hm)
        · exact Or.inr hne

theorem Inv_pushVal (st : State) (n v : Str) (h : Inv st) : Inv (pushVal st n v) := by
  intro p hp
  rcases mem_pushVal st n v p hp with hm | hne
  · exact h p hm
  · exact hne

theorem inv_appendVals (vs : List Str) : ∀ st n st', Inv st →
    appendVals st n vs = some st' → Inv st' := by
  induction vs with
  | nil =>
    intro st n st' h he
    simp only [appendVals] at he
    injection he with he
    subst he
    exact h
  | cons v rest ih =>
    intro st n st' h he
    cases hd : decodeVal v with
    | none => simp [appendVals, hd] at he
    | some d =>
      simp only [appendVals, hd] at he
      by_cases hs : (findVals st n).isSome = true
      · rw [if_pos hs] at he
        exact ih _ n st' (Inv_pushVal st n d h) he
      · rw [if_neg hs] at he
        cases he

theorem pushVal_append_absent (st : State) (n : Str) (vs : List Str) (v : Str)
    (h : findVals st n = none) :
    pushVal (st ++ [(n, vs)]) n v = st ++ [(n, vs ++ [v])] := by
  induction st with
  | nil => simp [pushVal]
  | cons p rest ih =>
    obtain ⟨k, w⟩ := p
    simp only [findVals] at h
    by_cases hk : k = n
    · simp [hk] at h
    · rw [if_neg hk] at h
      simp only [List.cons_append, pushVal, if_neg hk, List.append_eq]
      rw [ih h]

theorem Inv_append (st : State) (n : Str) (vs : Values) (st' : State)
    (h : Inv st) (hvs : vs ≠ Values.arr []) (he : append st n vs = some st') :
    Inv st' := by
  unfold append at he
  by_cases hg : (n.isEmpty || falsyVals vs) = true
  · rw [if_pos hg] at he
    injection he with he
    subst he
    exact h
  · rw [if_neg hg] at he
    have hvals : (match vs with | Values.str s => [s] | Values.arr l => l) ≠ [] := by
      cases vs with
      | str s =>
        simp
      | arr l =>
        intro hl
        simp only at hl
        subst hl
        exact hvs rfl
    unfold ensureKey propTruthy at he
    by_cases hf : (findVals st n).isSome = true
    · simp only [hf, Bool.true_or, if_true] at he
      exact inv_appendVals _ st n st' h he
    · have hfn : findVals st n = none := Option.not_isSome_iff_eq_none.mp hf
      by_cases hm : n ∈ protoNames
      · have hc : ((findVals st n).isSome || decide (n ∈ protoNames)) = true := by
          rw [hfn]
          simp [hm]
        rw [if_pos hc] at he
        cases hv : (match vs with | Values.str s => [s] | Values.arr l => l) with
        | nil => exact absurd hv hvals
        | cons v rest =>
          rw [hv] at he
          cases hd : decodeVal v with
          | none => simp [appendVals, hd] at he
          | some d =>
            simp only [appendVals, hd] at he
            rw [if_neg hf] at he
            cases he
      · have hc : ((findVals st n).isSome || decide (n ∈ protoNames)) = false := by
          rw [hfn]
          simp [hm]
        rw [hc] at he
        simp only [Bool.false_eq_true, if_false] at he
        cases hv : (match vs with | Values.str s => [s] | Values.arr l => l) with
        | nil => exact absurd hv hvals
        | cons v rest =>
          rw [hv] at he
          cases hd : decodeVal v with
          | none => simp [appendVals, hd] at he
          | some d =>
            simp only [appendVals, hd] at he
            rw [if_pos (by rw [findVals_append_right st n [] hfn n, if_pos rfl]; rfl)]
              at he
            rw [pushVal_append_absent st n [] d hfn] at he
            refine inv_appendVals rest _ n st' ?_ he
            intro p hp
            rcases List.mem_append.mp hp with hm2 | hm2
            · exact h p hm2
            · rw [List.mem_singleton] at hm2
              subst hm2
              simp

theorem mem_setKey (st : State) (n : Str) (vs : List Str) :
    ∀ p ∈ setKey st n vs, p ∈ st ∨ p = (n, vs) := by
  induction st with
  | nil => simp [setKey]
  | cons q rest ih =>
    obtain ⟨k, w⟩ := q
    intro p hp
    by_cases h : k = n
    · simp only [setKey, if_pos h] at hp
      rcases List.mem_cons.mp hp with rfl | hpr
      · right; rw [h]
      · exact Or.inl (List.mem_cons_of_mem _ hpr)
    · simp only [setKey, if_neg h] at hp
      rcases List.mem_cons.mp hp with rfl | hpr
      · exact Or.inl (List.mem_cons_self _ _)
      · rcases ih p hpr with hm | he
        · exact Or.inl (List.mem_cons_of_mem _ hm)
        · exact Or.inr he

theorem findVals_mem (st : State) (n : Str) (vs : List Str)
    (h : findVals st n = some vs) : (n, vs) ∈ st := by
  induction st with
  | nil => simp [findVals] at h
  | cons p rest ih =>
    obtain ⟨k, w⟩ := p
    by_cases hk : k = n
    · simp only [findVals, if_pos hk] at h
      injection h with h
      subst h
      subst hk
      exact List.mem_cons_self _ _
    · simp only [findVals, if_neg hk] at h
      exact List.mem_cons_of_mem _ (ih h)

theorem keys_subset_fst (st : State) : ∀ k ∈ keys st, k ∈ st.map Prod.fst := by
  intro k hk
  unfold keys ownKeysOrder at hk
  rcases List.mem_append.mp hk with hm | hm
  · have := (List.perm_insertionSort idxLe _).mem_iff.mp hm
    exact List.mem_of_mem_filter this
  · exact List.mem_of_mem_filter hm

theorem findVals_isSome_of_mem (st : State) (k : Str) (vs : List Str)
    (hm : (k, vs) ∈ st) : (findVals st k).isSome := by
  induction st with
  | nil => simp at hm
  | cons p rest ih =>
    obtain ⟨k2, w⟩ := p
    rcases List.mem_cons.mp hm with he | hm2
    · injection he with h1 h2
      subst h1
      simp [findVals]
    · by_cases hk : k2 = k
      · simp [findVals, hk]
      · simp only [findVals, if_neg hk]
        exact ih hm2

theorem Inv_sort (st : State) (h : Inv st) : Inv (sort st) := by
  intro p hp
  unfold sort at hp
  rcases List.mem_map.mp hp with ⟨k, hk, rfl⟩
  have hk2 : k ∈ keys st := (List.perm_insertionSort strLe _).mem_iff.mp hk
  have hk3 : k ∈ st.map Prod.fst := keys_subset_fst st k hk2
  rcases List.mem_map.mp hk3 with ⟨q, hq, rfl⟩
  cases hf : findVals st q.1 with
  | none =>
    exfalso
    have hs := findVals_isSome_of_mem st q.1 q.2 (by rw [Prod.mk.eta]; exact hq)
    rw [hf] at hs
    simp at hs
  | some vs =>
    have hne : vs ≠ [] := h (q.1, vs) (findVals_mem st q.1 vs hf)
    simp only [getAll, hf, Option.getD_some]
    intro hnil
    have : (List.insertionSort strLe vs).length = vs.length :=
      (List.perm_insertionSort strLe vs).length_eq
    rw [hnil] at this
    exact hne (List.eq_nil_of_length_eq_zero this.symm)

theorem Inv_parseLoop (pairs : List Str) : ∀ st st', Inv st →
    parseLoop pairs st = some st' → Inv st' := by
  induction pairs with
  | nil =>
    intro st st' h he
    simp only [parseLoop] at he
    injection he with he
    subst he
    exact h
  | cons p rest ih =>
    intro st st' h he
    cases hp : parsePair st p with
    | none => simp [parseLoop, hp] at he
    | some st2 =>
      simp only [parseLoop, hp] at he
      refine ih st2 st' ?_ he
      unfold parsePair at hp
      cases hj : jsSplit '=' p with
      | nil =>
        rw [hj] at hp
        injection hp with hp
        subst hp
        exact h
      | cons name rest2 =>
        rw [hj] at hp
        exact Inv_append st name _ st2 h (by intro hx; cases hx) hp

/-- C3 amended: the non-empty-sequence invariant is preserved by the
string constructor, `set`, `delete`, `sort`, and by `append` except in one
case the truthiness guard misses: `append(name, [])` with a truthy name
not yet present creates a persistent empty-sequence entry
(`has(name)` becomes `true`, `keys()` gains `name`), while
`append(name, [])` on a present name really is a no-op. -/
theorem C3_invariant_with_empty_array_exception :
    Inv ([] : State) ∧
    (∀ q st, parse q = some st → Inv st) ∧
    (∀ st n v, Inv st → Inv (set st n v)) ∧
    (∀ st n, Inv st → Inv (delete st n)) ∧
    (∀ st, Inv st → Inv (sort st)) ∧
    (∀ st n vs st', Inv st → vs ≠ Values.arr [] → append st n vs = some st' → Inv st') ∧
    (∀ st n, has st n = false → n ≠ [] →
      append st n (Values.arr []) = some (st ++ [(n, [])])) ∧
    (∀ st n, has st n = true → append st n (Values.arr []) = some st) := by
  refine ⟨by intro p hp; simp at hp, ?_, ?_, ?_, Inv_sort, Inv_append, ?_, ?_⟩
  · intro q st he
    exact Inv_parseLoop _ [] st (by intro p hp; simp at hp) he
  · intro st n v h p hp
    rcases mem_setKey st n [v] p hp with hm | rfl
    · exact h p hm
    · simp
  · intro st n h p hp
    exact h p (List.mem_of_mem_filter hp)
  · intro st n hh hn
    have hne : n.isEmpty = false := by
      cases n with
      | nil => exact absurd rfl hn
      | cons c r => rfl
    unfold append
    rw [hne]
    simp only [falsyVals, Bool.or_false]
    unfold ensureKey propTruthy
    unfold has at hh
    rw [hh]
    simp [appendVals]
  · intro st n hh
    unfold append
    by_cases hg : (n.isEmpty || falsyVals (Values.arr [])) = true
    · rw [if_pos hg]
    · rw [if_neg hg]
      unfold ensureKey propTruthy
      unfold has at hh
      rw [hh]
      simp [appendVals]

/-- Witness for C3: the invariant survives a concrete `set`, and a
concrete `append('x', [])` on an absent name creates the empty entry. -/
theorem C3_witness :
    Inv (set [("a".toList, ["b".toList])] "c".toList "d".toList) ∧
    append [("a".toList, ["b".toList])] "x".toList (Values.arr []) =
      some [("a".toList, ["b".toList]), ("x".toList, [])] :=
  ⟨C3_invariant_with_empty_array_exception.2.2.1 _ _ _ (by decide),
   C3_invariant_with_empty_array_exception.2.2.2.2.2.2.1 _ _ (by decide) (by decide)⟩

theorem fst_pushVal (st : State) (n v : Str) :
    (pushVal st n v).map Prod.fst = st.map Prod.fst := by
  induction st with
  | nil => rfl
  | cons p rest ih =>
    obtain ⟨k, w⟩ := p
    by_cases h : k = n
    · simp [pushVal, h]
    · simp [pushVal, h, ih]

theorem fst_appendVals (vs : List Str) : ∀ st n st', appendVals st n vs = some st' →
    st'.map Prod.fst = st.map Prod.fst := by
  induction vs with
  | nil =>
    intro st n st' he
    simp only [appendVals] at he
    injection he with he
    subst he
    rfl
  | cons v rest ih =>
    intro st n st' he
    cases hd : decodeVal v with
    | none => simp [appendVals, hd] at he
    | some d =>
      simp only [appendVals, hd] at he
      by_cases hs : (findVals st n).isSome = true
      · rw [if_pos hs] at he
        rw [ih _ n st' he, fst_pushVal]
      · rw [if_neg hs] at he
        cases he

theorem findVals_none_not_mem (st : State) (n : Str) (h : findVals st n = none) :
    n ∉ st.map Prod.fst := by
  intro hmem
  rcases List.mem_map.mp hmem with ⟨q, hq, rfl⟩
  have hs := findVals_isSome_of_mem st q.1 q.2 (by rw [Prod.mk.eta]; exact hq)
  rw [h] at hs
  simp at hs

theorem WF_append (st : State) (n : Str) (vs : Values) (st' : State)
    (h : WF st) (he : append st n vs = some st') : WF st' := by
  unfold append at he
  by_cases hg : (n.isEmpty || falsyVals vs) = true
  · rw [if_pos hg] at he
    injection he with he
    subst he
    exact h
  · rw [if_neg hg] at he
    have hfst := fst_appendVals _ _ n st' he
    unfold WF
    rw [hfst]
    unfold ensureKey propTruthy
    by_cases hc : ((findVals st n).isSome || decide (n ∈ protoNames)) = true
    · rw [if_pos hc]
      exact h
    · rw [if_neg hc, List.map_append]
      have hf : (findVals st n).isSome = false := by
        cases hx : (findVals st n).isSome with
        | false => rfl
        | true => exact absurd (by rw [hx]; rfl) hc
      simp only [List.map_cons, List.map_nil]
      refine List.Nodup.append h (List.nodup_singleton n) ?_
      intro x hx hx2
      rw [List.mem_singleton] at hx2
      subst hx2
      exact findVals_none_not_mem st x
        (Option.not_isSome_iff_eq_none.mp (by rw [hf]; exact Bool.false_ne_true)) hx

theorem fst_setKey (st : State) (n : Str) (vs : List Str) :
    (setKey st n vs).map Prod.fst =
      if n ∈ st.map Prod.fst then st.map Prod.fst else st.map Prod.fst ++ [n] := by
  induction st with
  | nil => simp [setKey]
  | cons p rest ih =>
    obtain ⟨k, w⟩ := p
    by_cases h : k = n
    · subst h
      simp [setKey]
    · simp only [setKey, if_neg h, List.map_cons, ih]
      by_cases hm : n ∈ rest.map Prod.fst
      · rw [if_pos hm, if_pos (List.mem_cons_of_mem _ hm)]
      · rw [if_neg hm, if_neg ?_]
        · rfl
        · intro hc
          rcases List.mem_cons.mp hc with he | hm2
          · exact h he.symm
          · exact hm hm2

theorem WF_set (st : State) (n v : Str) (h : WF st) : WF (set st n v) := by
  unfold WF set
  rw [fst_setKey]
  by_cases hm : n ∈ st.map Prod.fst
  · rw [if_pos hm]
    exact h
  · rw [if_neg hm]
    refine List.Nodup.append h (List.nodup_singleton n) ?_
    intro x hx hx2
    rw [List.mem_singleton] at hx2
    subst hx2
    exact hm hx

theorem WF_delete (st : State) (n : Str) (h : WF st) : WF (delete st n) :=
  List.Nodup.sublist ((List.filter_sublist st).map Prod.fst) h

theorem WF_parseLoop (pairs : List Str) : ∀ st st', WF st →
    parseLoop pairs st = some st' → WF st' := by
  induction pairs with
  | nil =>
    intro st st' h he
    simp only [parseLoop] at he
    injection he with he
    subst he
    exact h
  | cons p rest ih =>
    intro st st' h he
    cases hp : parsePair st p with
    | none => simp [parseLoop, hp] at he
    | some st2 =>
      simp only [parseLoop, hp] at he
      refine ih st2 st' ?_ he
      unfold parsePair at hp
      cases hj : jsSplit '=' p with
      | nil =>
        rw [hj] at hp
        injection hp with hp
        subst hp
        exact h
      | cons name rest2 =>
        rw [hj] at hp
        exact WF_append st name _ st2 h hp

theorem Reachable_WF (st : State) (h : Reachable st) : WF st := by
  induction h with
  | empty => exact List.nodup_nil
  | ofParse q st he => exact WF_parseLoop _ [] st List.nodup_nil he
  | appendStep st n vs st' _ he ih => exact WF_append st n vs st' ih he
  | setStep st n v _ ih => exact WF_set st n v ih
  | deleteStep st n _ ih => exact WF_delete st n ih

theorem keys_perm_fst (st : State) : List.Perm (keys st) (st.map Prod.fst) :=
  ((List.perm_insertionSort idxLe _).append_right _).trans
    (List.filter_append_perm _ _)

theorem keys_eq_fst_of_no_idx (st : State)
    (h : ∀ k ∈ st.map Prod.fst, isArrayIndex k = false) :
    keys st = st.map Prod.fst := by
  unfold keys ownKeysOrder
  have h1 : (st.map Prod.fst).filter isArrayIndex = [] := by
    rw [List.filter_eq_nil_iff]
    intro k hk
    rw [h k hk]
    simp
  have h2 : (st.map Prod.fst).filter (fun k => !isArrayIndex k) =
      st.map Prod.fst := by
    rw [List.filter_eq_self]
    intro k hk
    rw [h k hk]
    rfl
  rw [h1, h2]
  rfl

/-- C7 is false on the code: the internal store is a plain object, whose
`for-in` enumeration puts canonical array-index keys first in ascending
numeric order — `new Collection('2=a&1=b')` stores names in first-seen
order `['2','1']` but `keys()` returns `['1','2']`, and iteration follows
the same reordering. -/
theorem C7_counterexample :
    parse "2=a&1=b".toList =
      some [("2".toList, ["a".toList]), ("1".toList, ["b".toList])] ∧
    keys [("2".toList, ["a".toList]), ("1".toList, ["b".toList])] =
      ["1".toList, "2".toList] ∧
    ["1".toList, "2".toList] ≠ ["2".toList, "1".toList] ∧
    entriesList [("2".toList, ["a".toList]), ("1".toList, ["b".toList])] =
      [("1".toList, "b".toList), ("2".toList, "a".toList)] := by decide

/-- C7 amended: for every collection built by constructor / append / set /
delete (no sort), the names are distinct and `keys()` returns exactly one
entry per distinct name — array-index names first in ascending numeric
order, then the remaining names in first-seen insertion order; when no
name is an array-index string this is exactly first-seen insertion order —
and `forEach` / `values` / `entries` visit names in that same `keys()`
order, name-major. -/
theorem C7_keys_first_seen_modulo_array_indices :
    (∀ st, Reachable st → WF st) ∧
    (∀ st, List.Perm (keys st) (st.map Prod.fst)) ∧
    (∀ st, Reachable st → (keys st).Nodup) ∧
    (∀ st, (∀ k ∈ st.map Prod.fst, isArrayIndex k = false) →
      keys st = st.map Prod.fst) ∧
    (∀ st, iterPairs st =
      (keys st).flatMap (fun n => (getAll st n).map (fun v => (n, v)))) ∧
    (∀ st, valuesList st = (iterPairs st).map Prod.snd) ∧
    (∀ st, entriesList st = iterPairs st) := by
  refine ⟨Reachable_WF, keys_perm_fst, ?_, keys_eq_fst_of_no_idx, fun st => rfl,
    fun st => rfl, fun st => rfl⟩
  intro st h
  exact ((keys_perm_fst st).nodup_iff).mpr (Reachable_WF st h)

/-- Witness for C7: a parsed singleton collection is reachable,
well-formed and has duplicate-free keys. -/
theorem C7_witness :
    WF [("a".toList, ["b".toList])] ∧ (keys [("a".toList, ["b".toList])]).Nodup :=
  ⟨C7_keys_first_seen_modulo_array_indices.1 _
      (Reachable.ofParse ("a=b".toList) _ (by decide)),
   C7_keys_first_seen_modulo_array_indices.2.2.1 _
      (Reachable.ofParse ("a=b".toList) _ (by decide))⟩

theorem findVals_map_keyfun (ks : List Str) (f : Str → List Str) (n : Str) :
    findVals (ks.map (fun k => (k, f k))) n =
      if n ∈ ks then some (f n) else none := by
  induction ks with
  | nil => simp [findVals]
  | cons k rest ih =>
    by_cases h : k = n
    · subst h
      simp [findVals]
    · simp only [List.map_cons, findVals, if_neg h, ih]
      have hiff : n ∈ k :: rest ↔ n ∈ rest := by
        constructor
        · intro hm
          rcases List.mem_cons.mp hm with he | hm2
          · exact absurd he.symm h
          · exact hm2
        · exact List.mem_cons_of_mem _
      rw [if_congr hiff rfl rfl]

theorem fst_sort (st : State) :
    (sort st).map Prod.fst = List.insertionSort strLe (keys st) := by
  unfold sort
  rw [List.map_map]
  exact List.map_id _

/-- C6 is false on the code: with array-index names the object reorders
keys numerically after `sort()` rebuilds the mapping —
`new Collection('9=a&10=b').sort().keys()` is `['9','10']`, which is
lexicographically decreasing (`'10' < '9'`). -/
theorem C6_counterexample :
    parse "9=a&10=b".toList =
      some [("9".toList, ["a".toList]), ("10".toList, ["b".toList])] ∧
    keys (sort [("9".toList, ["a".toList]), ("10".toList, ["b".toList])]) =
      ["9".toList, "10".toList] ∧
    ¬ strLe "9".toList "10".toList ∧
    strLe "10".toList "9".toList := by decide

/-- C6 amended: after `sort()` every value sequence is sorted
(UTF-16 code-unit lexicographic order, which is code-point order on BMP
strings), and `keys()` is likewise sorted provided no name is a canonical
array-index string (array-index names are enumerated numerically first,
which can violate lexicographic order). -/
theorem C6_sort_orders_keys_and_values :
    (∀ st n, List.Sorted strLe (getAll (sort st) n)) ∧
    (∀ st, (∀ k ∈ st.map Prod.fst, isArrayIndex k = false) →
      keys (sort st) = List.insertionSort strLe (keys st) ∧
      List.Sorted strLe (keys (sort st))) := by
  have hga : ∀ st n, getAll (sort st) n = [] ∨
      ∃ vs, getAll (sort st) n = List.insertionSort strLe vs := by
    intro st n
    unfold getAll sort
    rw [findVals_map_keyfun]
    by_cases hm : n ∈ List.insertionSort strLe (keys st)
    · right
      exact ⟨getAll st n, by rw [if_pos hm]; rfl⟩
    · left
      rw [if_neg hm]
      rfl
  constructor
  · intro st n
    rcases hga st n with he | ⟨vs, he⟩
    · rw [he]
      exact List.sorted_nil
    · rw [he]
      exact List.sorted_insertionSort strLe vs
  · intro st h
    have hkeys : keys (sort st) = List.insertionSort strLe (keys st) := by
      unfold keys ownKeysOrder
      rw [fst_sort]
      have hno : ∀ k ∈ List.insertionSort strLe (keys st), isArrayIndex k = false := by
        intro k hk
        have hk2 : k ∈ keys st := (List.perm_insertionSort strLe _).mem_iff.mp hk
        exact h k (keys_subset_fst st k hk2)
      have h1 : (List.insertionSort strLe (keys st)).filter isArrayIndex = [] := by
        rw [List.filter_eq_nil_iff]
        intro k hk
        rw [hno k hk]
        simp
      have h2 : (List.insertionSort strLe (keys st)).filter
          (fun k => !isArrayIndex k) = List.insertionSort strLe (keys st) := by
        rw [List.filter_eq_self]
        intro k hk
        rw [hno k hk]
        rfl
      rw [h1, h2]
      rfl
    refine ⟨hkeys, ?_⟩
    rw [hkeys]
    exact List.sorted_insertionSort strLe (keys st)

/-- Witness for C6: sorting a concrete two-name collection yields
lexicographically sorted keys. -/
theorem C6_witness :
    List.Sorted strLe
      (keys (sort [("b".toList, ["y".toList]), ("a".toList, ["x".toList])])) :=
  (C6_sort_orders_keys_and_values.2 _ (by decide)).2

theorem encReplace_cons_np (c : Char) (x : List Char) (h : c ≠ '%') :
    encReplace (c :: x) = (if isPunct c then pctPunct c else [c]) ++ encReplace x := by
  rw [encReplace.eq_def]
  split
  · rename_i heq
    cases heq
  · rename_i d1 d2 rest heq
    injection heq with h1 h2
    exact absurd h1 h
  · rename_i c2 rest hno heq
    injection heq with h1 h3
    subst h1
    subst h3
    by_cases hp : isPunct c = true
    · rw [if_pos hp, if_pos hp]
    · rw [if_neg hp, if_neg hp]
      rfl

theorem encReplace_pct (d1 d2 : Char) (x : List Char) :
    encReplace ('%' :: d1 :: d2 :: x) =
      if d1 = '2' ∧ d2 = '0' then '+' :: encReplace x
      else if d1 = '0' ∧ d2 = '0' then Char.ofNat 0 :: encReplace x
      else '%' :: encReplace (d1 :: d2 :: x) := rfl

theorem replace3_cons_np (p1 p2 p3 : Char) (r : List Char) (a : Char)
    (x : List Char) (h : a ≠ p1) :
    replace3 p1 p2 p3 r (a :: x) = a :: replace3 p1 p2 p3 r x := by
  cases x with
  | nil => rfl
  | cons b y =>
    cases y with
    | nil => rfl
    | cons c z =>
      rw [replace3, if_neg]
      intro hand
      exact h hand.1

theorem replace3_pct (p2 p3 : Char) (r : List Char) (d1 d2 : Char) (x : List Char) :
    replace3 '%' p2 p3 r ('%' :: d1 :: d2 :: x) =
      if d1 = p2 ∧ d2 = p3 then r ++ replace3 '%' p2 p3 r x
      else '%' :: replace3 '%' p2 p3 r (d1 :: d2 :: x) := by
  rw [replace3]
  by_cases hc : d1 = p2 ∧ d2 = p3
  · rw [if_pos ⟨rfl, hc.1, hc.2⟩, if_pos hc]
  · rw [if_neg (fun hand => hc ⟨hand.2.1, hand.2.2⟩), if_neg hc]

theorem not_punct_of_hexUp (c : Char) (h : hexUp c = true) : isPunct c = false := by
  cases hp : isPunct c with
  | false => rfl
  | true =>
    exfalso
    simp only [isPunct, Bool.or_eq_true, beq_iff_eq] at hp
    rcases hp with ((((rfl | rfl) | rfl) | rfl) | rfl) <;> exact absurd h (by decide)

theorem ne_pct_of_hexUp (c : Char) (h : hexUp c = true) : c ≠ '%' := by
  intro he
  subst he
  exact absurd h (by decide)

theorem ne_pct_of_unres (c : Char) (h : uriUnreserved c = true) : c ≠ '%' := by
  intro he
  subst he
  exact absurd h (by decide)

theorem encReplace_chunks (chunks : List (List Char))
    (h : ∀ l ∈ chunks, goodChunk l) :
    encReplace chunks.flatten = (chunks.map chunkT).flatten := by
  induction chunks with
  | nil => rfl
  | cons l rest ih =>
    have hl := h l (List.mem_cons_self l rest)
    have hrest := fun q hq => h q (List.mem_cons_of_mem l hq)
    rw [List.flatten_cons, List.map_cons, List.flatten_cons]
    rcases hl with ⟨c, rfl, hc⟩ | ⟨d1, d2, rfl, h1, h2⟩
    · rw [List.singleton_append, encReplace_cons_np c _ (ne_pct_of_unres c hc),
        ih hrest]
      rfl
    · show encReplace ('%' :: d1 :: d2 :: rest.flatten) = _
      rw [encReplace_pct]
      by_cases h20 : d1 = '2' ∧ d2 = '0'
      · obtain ⟨rfl, rfl⟩ := h20
        rw [if_pos ⟨rfl, rfl⟩, ih hrest]
        rfl
      · rw [if_neg h20]
        by_cases h00 : d1 = '0' ∧ d2 = '0'
        · obtain ⟨rfl, rfl⟩ := h00
          rw [if_pos ⟨rfl, rfl⟩, ih hrest]
          rfl
        · rw [if_neg h00]
          rw [encReplace_cons_np d1 _ (ne_pct_of_hexUp d1 h1)]
          rw [not_punct_of_hexUp d1 h1]
          simp only [Bool.false_eq_true, if_false, List.singleton_append]
          rw [encReplace_cons_np d2 _ (ne_pct_of_hexUp d2 h2)]
          rw [not_punct_of_hexUp d2 h2]
          simp only [Bool.false_eq_true, if_false, List.singleton_append]
          rw [ih hrest]
          have hT : chunkT ['%', d1, d2] = ['%', d1, d2] := by
            simp only [chunkT, if_true]
            rw [if_neg h20, if_neg h00]
          rw [hT]
          rfl

theorem reencodePunct_append (x y : List Char) :
    reencodePunct (x ++ y) = reencodePunct x ++ reencodePunct y := by
  unfold reencodePunct
  rw [List.map_append, List.flatten_append]

theorem reencodePunct_chunks (chunks : List (List Char))
    (h : ∀ l ∈ chunks, goodChunk l) :
    reencodePunct chunks.flatten = (chunks.map chunkP).flatten := by
  induction chunks with
  | nil => rfl
  | cons l rest ih =>
    have hl := h l (List.mem_cons_self l rest)
    have hrest := fun q hq => h q (List.mem_cons_of_mem l hq)
    rw [List.flatten_cons, List.map_cons, List.flatten_cons,
      reencodePunct_append, ih hrest]
    rcases hl with ⟨c, rfl, hc⟩ | ⟨d1, d2, rfl, h1, h2⟩
    · simp [reencodePunct, chunkP]
    · have hp : isPunct '%' = false := by decide
      simp [reencodePunct, chunkP, hp, not_punct_of_hexUp d1 h1,
        not_punct_of_hexUp d2 h2]

theorem chunkP_good2 (l : List Char) (h : goodChunk l) : goodChunk2 (chunkP l) := by
  rcases h with ⟨c, rfl, hc⟩ | ⟨d1, d2, rfl, h1, h2⟩
  · by_cases hp : isPunct c = true
    · simp only [chunkP, if_pos hp]
      simp only [isPunct, Bool.or_eq_true, beq_iff_eq] at hp
      rcases hp with ((((rfl | rfl) | rfl) | rfl) | rfl) <;>
        exact Or.inr ⟨_, _, rfl, by decide, by decide⟩
    · simp only [chunkP, if_neg hp]
      exact Or.inl ⟨c, rfl, ne_pct_of_unres c hc⟩
  · show goodChunk2 ['%', d1, d2]
    exact Or.inr ⟨d1, d2, rfl, ne_pct_of_hexUp d1 h1, ne_pct_of_hexUp d2 h2⟩

theorem replace3_chunks (p2 p3 : Char) (r : List Char)
    (chunks : List (List Char)) (h : ∀ l ∈ chunks, goodChunk2 l) :
    replace3 '%' p2 p3 r chunks.flatten =
      (chunks.map (fun l => if l = ['%', p2, p3] then r else l)).flatten := by
  induction chunks with
  | nil => rfl
  | cons l rest ih =>
    have hl := h l (List.mem_cons_self l rest)
    have hrest := fun q hq => h q (List.mem_cons_of_mem l hq)
    rw [List.flatten_cons, List.map_cons, List.flatten_cons]
    rcases hl with ⟨c, rfl, hc⟩ | ⟨d1, d2, rfl, h1, h2⟩
    · rw [List.singleton_append, replace3_cons_np '%' p2 p3 r c _ hc, ih hrest]
      rw [if_neg (by simp)]
      rfl
    · show replace3 '%' p2 p3 r ('%' :: d1 :: d2 :: rest.flatten) = _
      rw [replace3_pct]
      by_cases hp : d1 = p2 ∧ d2 = p3
      · obtain ⟨rfl, rfl⟩ := hp
        rw [if_pos ⟨rfl, rfl⟩, ih hrest, if_pos rfl]
      · rw [if_neg hp]
        rw [replace3_cons_np '%' p2 p3 r d1 _ h1,
          replace3_cons_np '%' p2 p3 r d2 _ h2, ih hrest]
        rw [if_neg (by intro he; simp at he; exact hp ⟨he.1, he.2⟩)]
        rfl

theorem char_toNat_lt (c : Char) : c.toNat < 1114112 := by
  have h : c.val.toNat < 55296 ∨ (57343 < c.val.toNat ∧ c.val.toNat < 1114112) :=
    c.valid
  rcases h with h1 | h1
  · exact Nat.lt_trans h1 (by norm_num)
  · exact h1.2

theorem utf8Bytes_lt (n : Nat) (hn : n < 1114112) : ∀ b ∈ utf8Bytes n, b < 256 := by
  unfold utf8Bytes
  split_ifs with h1 h2 h3
  · intro b hb
    rw [List.mem_singleton] at hb
    omega
  · have hd : n / 64 < 32 := Nat.div_lt_of_lt_mul (by omega)
    have hm : n % 64 < 64 := Nat.mod_lt _ (by omega)
    intro b hb
    rcases List.mem_cons.mp hb with rfl | hb2
    · omega
    · rw [List.mem_singleton] at hb2
      omega
  · have hd : n / 4096 < 16 := Nat.div_lt_of_lt_mul (by omega)
    have hm1 : n / 64 % 64 < 64 := Nat.mod_lt _ (by omega)
    have hm : n % 64 < 64 := Nat.mod_lt _ (by omega)
    intro b hb
    rcases List.mem_cons.mp hb with rfl | hb2
    · omega
    · rcases List.mem_cons.mp hb2 with rfl | hb3
      · omega
      · rw [List.mem_singleton] at hb3
        omega
  · have hd : n / 262144 < 5 := Nat.div_lt_of_lt_mul (by omega)
    have hm2 : n / 4096 % 64 < 64 := Nat.mod_lt _ (by omega)
    have hm1 : n / 64 % 64 < 64 := Nat.mod_lt _ (by omega)
    have hm : n % 64 < 64 := Nat.mod_lt _ (by omega)
    intro b hb
    rcases List.mem_cons.mp hb with rfl | hb2
    · omega
    · rcases List.mem_cons.mp hb2 with rfl | hb3
      · omega
      · rcases List.mem_cons.mp hb3 with rfl | hb4
        · omega
        · rw [List.mem_singleton] at hb4
          omega

theorem pctByte_good (b : Nat) (hb : b < 256) : goodChunk (pctByte b) := by
  right
  refine ⟨_, _, rfl, ?_, ?_⟩
  · have h1 : b / 16 < 16 := Nat.div_lt_of_lt_mul (by omega)
    have hall : ∀ m, m < 16 → hexUp (hexDigitUpper m) = true := by decide
    exact hall _ h1
  · have h2 : b % 16 < 16 := Nat.mod_lt _ (by omega)
    have hall : ∀ m, m < 16 → hexUp (hexDigitUpper m) = true := by decide
    exact hall _ h2

theorem encodeURIComponent_chunks (s : Str) :
    ∃ chunks : List (List Char), encodeURIComponent s = chunks.flatten ∧
      ∀ l ∈ chunks, goodChunk l := by
  induction s with
  | nil => exact ⟨[], rfl, by simp⟩
  | cons c rest ih =>
    obtain ⟨chunks, he, hg⟩ := ih
    by_cases hu : uriUnreserved c = true
    · refine ⟨[c] :: chunks, ?_, ?_⟩
      · show ((c :: rest).map encChar).flatten = _
        rw [List.map_cons, List.flatten_cons, List.flatten_cons]
        unfold encodeURIComponent at he
        rw [he]
        unfold encChar
        rw [if_pos hu]
      · intro l hl
        rcases List.mem_cons.mp hl with rfl | hm
        · exact Or.inl ⟨c, rfl, hu⟩
        · exact hg l hm
    · refine ⟨(utf8Bytes c.toNat).map pctByte ++ chunks, ?_, ?_⟩
      · show ((c :: rest).map encChar).flatten = _
        rw [List.map_cons, List.flatten_cons, List.flatten_append]
        unfold encodeURIComponent at he
        rw [he]
        unfold encChar
        rw [if_neg hu]
      · intro l hl
        rcases List.mem_append.mp hl with hm | hm
        · rcases List.mem_map.mp hm with ⟨b, hb, rfl⟩
          exact pctByte_good b (utf8Bytes_lt c.toNat (char_toNat_lt c) b hb)
        · exact hg l hm

theorem chunk_compose (l : List Char) (h : goodChunk l) :
    (fun l2 => if l2 = ['%', '0', '0'] then [Char.ofNat 0] else l2)
      ((fun l2 => if l2 = ['%', '2', '0'] then ['+'] else l2) (chunkP l)) =
      chunkT l := by
  rcases h with ⟨c, rfl, hc⟩ | ⟨d1, d2, rfl, h1, h2⟩
  · by_cases hp : isPunct c = true
    · simp only [chunkP, chunkT, if_pos hp]
      simp only [isPunct, Bool.or_eq_true, beq_iff_eq] at hp
      rcases hp with ((((rfl | rfl) | rfl) | rfl) | rfl) <;> decide
    · simp only [chunkP, chunkT, if_neg hp]
      rw [if_neg (by simp), if_neg (by simp)]
  · show (fun l2 => if l2 = ['%', '0', '0'] then [Char.ofNat 0] else l2)
      ((fun l2 => if l2 = ['%', '2', '0'] then ['+'] else l2) ['%', d1, d2]) =
      chunkT ['%', d1, d2]
    by_cases h20 : d1 = '2' ∧ d2 = '0'
    · obtain ⟨rfl, rfl⟩ := h20
      decide
    · by_cases h00 : d1 = '0' ∧ d2 = '0'
      · obtain ⟨rfl, rfl⟩ := h00
        decide
      · have hne20 : ¬(['%', d1, d2] = ['%', '2', '0']) := by
          intro he
          simp at he
          exact h20 ⟨he.1, he.2⟩
        have hne00 : ¬(['%', d1, d2] = ['%', '0', '0']) := by
          intro he
          simp at he
          exact h00 ⟨he.1, he.2⟩
        simp only [if_neg hne20, if_neg hne00, chunkT, if_true]
        rw [if_neg h20, if_neg h00]

theorem encodeURI_eq_specEncode (s : Str) : encodeURI s = specEncode s := by
  obtain ⟨chunks, he, hg⟩ := encodeURIComponent_chunks s
  unfold encodeURI specEncode
  rw [he, encReplace_chunks chunks hg, reencodePunct_chunks chunks hg]
  have hg2 : ∀ l ∈ chunks.map chunkP, goodChunk2 l := by
    intro l hl
    rcases List.mem_map.mp hl with ⟨q, hq, rfl⟩
    exact chunkP_good2 q (hg q hq)
  rw [replace3_chunks '2' '0' ['+'] _ hg2]
  have hg3 : ∀ l ∈ (chunks.map chunkP).map
      (fun l => if l = ['%', '2', '0'] then ['+'] else l), goodChunk2 l := by
    intro l hl
    rcases List.mem_map.mp hl with ⟨q, hq, rfl⟩
    by_cases hq2 : q = ['%', '2', '0']
    · rw [if_pos hq2]
      exact Or.inl ⟨'+', rfl, by decide⟩
    · rw [if_neg hq2]
      exact hg2 q hq
  rw [replace3_chunks '0' '0' [Char.ofNat 0] _ hg3]
  rw [List.map_map, List.map_map]
  congr 1
  apply List.map_congr_left
  intro l hl
  exact (chunk_compose l (hg l hl)).symm

/-- C8: `toString` joins encoded `name=value` segments in `forEach` order
with `&`; the encode transform equals the spec-described pipeline
(percent-encode, re-encode `! ' ( ) ~`, then `%20` → `+` and `%00` → NUL);
the empty collection serializes to the empty string; and the concrete
example from the spec holds. -/
theorem C8_toString_segments_and_encoding :
    (∀ st, toString st = jsJoin '&'
      ((iterPairs st).map (fun p => encodeURI p.1 ++ '=' :: encodeURI p.2))) ∧
    (∀ s, encodeURI s = specEncode s) ∧
    toString ([] : State) = [] ∧
    (parse "name=pxy!fiy&version=1.0.0".toList).map toString =
      some "name=pxy%21fiy&version=1.0.0".toList := by
  refine ⟨fun st => rfl, encodeURI_eq_specEncode, rfl, by decide⟩

theorem safe_unres (c : Char) (h : safeChar c = true) : uriUnreserved c = true := by
  simp only [safeChar, Bool.or_eq_true] at h
  unfold uriUnreserved
  rcases h with ((((h | h) | h) | h) | h) <;> simp [h]

theorem not_punct_of_safe (c : Char) (h : safeChar c = true) : isPunct c = false := by
  cases hp : isPunct c with
  | false => rfl
  | true =>
    exfalso
    simp only [isPunct, Bool.or_eq_true, beq_iff_eq] at hp
    rcases hp with ((((rfl | rfl) | rfl) | rfl) | rfl) <;> exact absurd h (by decide)

theorem safe_ne (c x : Char) (h : safeChar c = true) (hx : safeChar x = false) :
    c ≠ x := by
  intro he
  subst he
  rw [h] at hx
  cases hx

theorem encodeURIComponent_safe (s : Str) (h : ∀ c ∈ s, safeChar c = true) :
    encodeURIComponent s = s := by
  induction s with
  | nil => rfl
  | cons c rest ih =>
    have hc := h c (List.mem_cons_self c rest)
    have hrest := ih (fun d hd => h d (List.mem_cons_of_mem c hd))
    show ((c :: rest).map encChar).flatten = c :: rest
    rw [List.map_cons, List.flatten_cons]
    show encChar c ++ encodeURIComponent rest = c :: rest
    rw [hrest]
    unfold encChar
    rw [if_pos (safe_unres c hc)]
    rfl

theorem encReplace_safe (s : Str) (h : ∀ c ∈ s, safeChar c = true) :
    encReplace s = s := by
  induction s with
  | nil => rfl
  | cons c rest ih =>
    have hc := h c (List.mem_cons_self c rest)
    rw [encReplace_cons_np c rest (safe_ne c '%' hc (by decide))]
    rw [not_punct_of_safe c hc]
    simp only [Bool.false_eq_true, if_false, List.singleton_append]
    rw [ih (fun d hd => h d (List.mem_cons_of_mem c hd))]

theorem encodeURI_safe (s : Str) (h : ∀ c ∈ s, safeChar c = true) :
    encodeURI s = s := by
  unfold encodeURI
  rw [encodeURIComponent_safe s h, encReplace_safe s h]

theorem decodeVal_safe (v : Str) (h : ∀ c ∈ v, safeChar c = true) :
    decodeVal v = some v := by
  unfold decodeVal
  have hf : v.filter (fun c => c != '+') = v := by
    rw [List.filter_eq_self]
    intro c hc
    have hne : c ≠ '+' := safe_ne c '+' (h c hc) (by decide)
    simp [hne]
  rw [hf]
  exact decodeEscaped_no_pct v (fun c hc => safe_ne c '%' (h c hc) (by decide))

theorem jsSplit_no_sep (sep : Char) (s : Str) (h : sep ∉ s) : jsSplit sep s = [s] := by
  induction s with
  | nil => rfl
  | cons c rest ih =>
    have hc : c ≠ sep := fun he => h (he ▸ List.mem_cons_self c rest)
    have hr := ih (fun hm => h (List.mem_cons_of_mem c hm))
    simp only [jsSplit, if_neg hc, hr]

theorem jsSplit_append_sep (sep : Char) (a b : Str) (h : sep ∉ a) :
    jsSplit sep (a ++ sep :: b) = a :: jsSplit sep b := by
  induction a with
  | nil =>
    show jsSplit sep (sep :: b) = [] :: jsSplit sep b
    simp [jsSplit]
  | cons c a2 ih =>
    have hc : c ≠ sep := fun he => h (he ▸ List.mem_cons_self c a2)
    have hr := ih (fun hm => h (List.mem_cons_of_mem c hm))
    show jsSplit sep (c :: (a2 ++ sep :: b)) = (c :: a2) :: jsSplit sep b
    simp only [jsSplit, if_neg hc, hr]

theorem jsJoin_chars (sep : Char) : ∀ (parts : List Str) (c : Char),
    c ∈ jsJoin sep parts → c = sep ∨ ∃ p ∈ parts, c ∈ p := by
  intro parts
  induction parts with
  | nil =>
    intro c hc
    simp [jsJoin] at hc
  | cons p rest ih =>
    intro c hc
    cases rest with
    | nil =>
      right
      exact ⟨p, List.mem_cons_self p [], hc⟩
    | cons q rest2 =>
      have hc2 : c ∈ p ++ sep :: jsJoin sep (q :: rest2) := hc
      rcases List.mem_append.mp hc2 with hm | hm
      · right
        exact ⟨p, List.mem_cons_self p _, hm⟩
      · rcases List.mem_cons.mp hm with rfl | hm2
        · left
          rfl
        · rcases ih c hm2 with he | ⟨r, hr, hcr⟩
          · left
            exact he
          · right
            exact ⟨r, List.mem_cons_of_mem p hr, hcr⟩

theorem jsSplit_join (sep : Char) : ∀ parts : List Str, parts ≠ [] →
    (∀ p ∈ parts, sep ∉ p) → jsSplit sep (jsJoin sep parts) = parts := by
  intro parts
  induction parts with
  | nil => intro h _; exact absurd rfl h
  | cons p rest ih =>
    intro _ h
    cases rest with
    | nil =>
      show jsSplit sep (jsJoin sep [p]) = [p]
      exact jsSplit_no_sep sep p (h p (List.mem_cons_self p []))
    | cons q rest2 =>
      show jsSplit sep (p ++ sep :: jsJoin sep (q :: rest2)) = p :: (q :: rest2)
      rw [jsSplit_append_sep sep p _ (h p (List.mem_cons_self p _))]
      rw [ih (by intro he; cases he) (fun r hr => h r (List.mem_cons_of_mem p hr))]

theorem stripQuery_eq_self (s : Str) (h : ∀ c ∈ s, c ≠ '?') : stripQuery s = s := by
  cases s with
  | nil => rfl
  | cons c rest => simp [stripQuery, h c (List.mem_cons_self c rest)]

theorem parseLoop_append (xs ys : List Str) (st st2 : State)
    (hx : parseLoop xs st = some st2) :
    parseLoop (xs ++ ys) st = parseLoop ys st2 := by
  induction xs generalizing st with
  | nil =>
    simp only [parseLoop] at hx
    injection hx with hx
    subst hx
    rfl
  | cons p rest ih =>
    cases hp : parsePair st p with
    | none =>
      simp only [parseLoop, hp] at hx
      cases hx
    | some st3 =>
      simp only [parseLoop, hp] at hx
      simp only [List.cons_append, parseLoop, hp]
      exact ih st3 hx

theorem append_safe_new (acc : State) (n v : Str) (w : List Str)
    (hn1 : n ≠ []) (hv1 : v ≠ []) (hv2 : ∀ c ∈ v, safeChar c = true)
    (hf : findVals acc n = none) :
    append (acc ++ [(n, w)]) n (Values.str v) = some (acc ++ [(n, w ++ [v])]) := by
  unfold append
  have h1 : n.isEmpty = false := by
    cases n with
    | nil => exact absurd rfl hn1
    | cons a b => rfl
  have h2 : falsyVals (Values.str v) = false := by
    simp only [falsyVals]
    cases v with
    | nil => exact absurd rfl hv1
    | cons a b => rfl
  rw [h1, h2]
  simp only [Bool.or_self, Bool.false_eq_true, if_false]
  unfold ensureKey propTruthy
  have hfv : findVals (acc ++ [(n, w)]) n = some w := by
    rw [findVals_append_right acc n w hf n, if_pos rfl]
  rw [hfv]
  simp only [Option.isSome_some, Bool.true_or, if_true]
  simp only [appendVals, decodeVal_safe v hv2]
  rw [hfv]
  simp only [Option.isSome_some, if_true]
  rw [pushVal_append_absent acc n w v hf]

theorem append_safe_create (acc : State) (n v : Str)
    (hn1 : n ≠ []) (hproto : n ∉ protoNames)
    (hv1 : v ≠ []) (hv2 : ∀ c ∈ v, safeChar c = true)
    (hf : findVals acc n = none) :
    append acc n (Values.str v) = some (acc ++ [(n, [v])]) := by
  unfold append
  have h1 : n.isEmpty = false := by
    cases n with
    | nil => exact absurd rfl hn1
    | cons a b => rfl
  have h2 : falsyVals (Values.str v) = false := by
    simp only [falsyVals]
    cases v with
    | nil => exact absurd rfl hv1
    | cons a b => rfl
  rw [h1, h2]
  simp only [Bool.or_self, Bool.false_eq_true, if_false]
  unfold ensureKey propTruthy
  rw [hf]
  simp only [Option.isSome_none, Bool.false_or, hproto, decide_eq_true_eq,
    if_false]
  have hown : findVals (acc ++ [(n, [])]) n = some [] := by
    rw [findVals_append_right acc n [] hf n, if_pos rfl]
  simp only [appendVals, decodeVal_safe v hv2]
  rw [hown]
  simp only [Option.isSome_some, if_true]
  rw [pushVal_append_absent acc n [] v hf]
  rfl

theorem parsePair_safe_seg (acc2 : State) (n v : Str)
    (hn2 : ∀ c ∈ n, safeChar c = true) (hv2 : ∀ c ∈ v, safeChar c = true) :
    parsePair acc2 (n ++ '=' :: v) = append acc2 n (Values.str v) := by
  unfold parsePair
  rw [jsSplit_append_sep '=' n v (fun hm => absurd (hn2 '=' hm) (by decide)),
    jsSplit_no_sep '=' v (fun hm => absurd (hv2 '=' hm) (by decide))]
  simp only [List.headD_cons]

theorem parse_vals (n : Str) (hn1 : n ≠ []) (hn2 : ∀ c ∈ n, safeChar c = true) :
    ∀ vs : List Str, (∀ v ∈ vs, v ≠ [] ∧ ∀ c ∈ v, safeChar c = true) →
    ∀ (acc : State) (w : List Str), findVals acc n = none →
    parseLoop (vs.map (fun v => n ++ '=' :: v)) (acc ++ [(n, w)]) =
      some (acc ++ [(n, w ++ vs)]) := by
  intro vs
  induction vs with
  | nil =>
    intro _ acc w _
    simp [parseLoop]
  | cons v rest ih =>
    intro hvs acc w hf
    obtain ⟨hv1, hv2⟩ := hvs v (List.mem_cons_self v rest)
    have hpp : parsePair (acc ++ [(n, w)]) (n ++ '=' :: v) =
        some (acc ++ [(n, w ++ [v])]) := by
      rw [parsePair_safe_seg _ n v hn2 hv2]
      exact append_safe_new acc n v w hn1 hv1 hv2 hf
    simp only [List.map_cons, parseLoop, hpp]
    rw [ih (fun u hu => hvs u (List.mem_cons_of_mem v hu)) acc (w ++ [v]) hf]
    rw [List.append_assoc]
    rfl

theorem parse_entries : ∀ (st acc : State),
    (st.map Prod.fst).Nodup →
    (∀ p ∈ st, p.1 ≠ [] ∧ (∀ c ∈ p.1, safeChar c = true) ∧ p.1 ∉ protoNames ∧
      p.2 ≠ [] ∧ ∀ v ∈ p.2, v ≠ [] ∧ ∀ c ∈ v, safeChar c = true) →
    (∀ p ∈ st, findVals acc p.1 = none) →
    parseLoop (st.flatMap (fun p => p.2.map (fun v => p.1 ++ '=' :: v))) acc =
      some (acc ++ st) := by
  intro st
  induction st with
  | nil =>
    intro acc _ _ _
    simp [parseLoop]
  | cons p rest ih =>
    intro acc hnd hsafe hdis
    obtain ⟨n, vs⟩ := p
    obtain ⟨hn1, hn2, hn3, hvs1, hvs2⟩ := hsafe (n, vs) (List.mem_cons_self _ _)
    have hfn : findVals acc n = none := hdis (n, vs) (List.mem_cons_self _ _)
    cases vs with
    | nil => exact absurd rfl hvs1
    | cons v vtail =>
      obtain ⟨hv1, hv2⟩ := hvs2 v (List.mem_cons_self _ _)
      have hpp1 : parsePair acc (n ++ '=' :: v) = some (acc ++ [(n, [v])]) := by
        rw [parsePair_safe_seg acc n v hn2 hv2]
        exact append_safe_create acc n v hn1 hn3 hv1 hv2 hfn
      have hvals := parse_vals n hn1 hn2 vtail
        (fun u hu => hvs2 u (List.mem_cons_of_mem v hu)) acc [v] hfn
      show parseLoop (((v :: vtail).map (fun u => n ++ '=' :: u)) ++
        rest.flatMap (fun q => q.2.map (fun u => q.1 ++ '=' :: u))) acc = _
      simp only [List.map_cons, List.cons_append, parseLoop, hpp1, List.append_eq]
      rw [parseLoop_append _ _ _ _ hvals]
      have hn_notin : n ∉ rest.map Prod.fst := (List.nodup_cons.mp hnd).1
      have hih := ih (acc ++ [(n, [v] ++ vtail)]) (List.nodup_cons.mp hnd).2
        (fun q hq => hsafe q (List.mem_cons_of_mem _ hq))
        (fun q hq => by
          rw [findVals_append_right acc n ([v] ++ vtail) hfn q.1]
          rw [if_neg (fun he => hn_notin
            (by rw [he]; exact List.mem_map.mpr ⟨q, hq, rfl⟩))]
          exact hdis q (List.mem_cons_of_mem _ hq))
      rw [hih, List.append_assoc]
      rfl

theorem flatMap_getAll (st : State) (hnd : (st.map Prod.fst).Nodup) :
    (st.map Prod.fst).flatMap (fun n => (getAll st n).map (fun v => (n, v))) =
      st.flatMap (fun p => p.2.map (fun v => (p.1, v))) := by
  induction st with
  | nil => rfl
  | cons p rest ih =>
    obtain ⟨n, vs⟩ := p
    obtain ⟨hnm, hnd2⟩ := List.nodup_cons.mp hnd
    rw [List.map_cons, List.flatMap_cons, List.flatMap_cons]
    have hga : getAll ((n, vs) :: rest) n = vs := by
      simp [getAll, findVals]
    rw [hga]
    have hcongr : (rest.map Prod.fst).flatMap
        (fun m => (getAll ((n, vs) :: rest) m).map (fun v => (m, v))) =
        (rest.map Prod.fst).flatMap
        (fun m => (getAll rest m).map (fun v => (m, v))) := by
      show ((rest.map Prod.fst).map _).flatten = ((rest.map Prod.fst).map _).flatten
      rw [List.map_congr_left]
      intro m hm
      have hmn : n ≠ m := fun he => hnm (he ▸ hm)
      simp only [getAll, findVals, if_neg hmn]
    rw [hcongr, ih hnd2]

/-- C4 is false on the code: names are never percent-decoded when parsing
but are percent-encoded by `toString`, so a name containing `%` does not
round-trip — `new Collection('%41=b')` stores the raw name `'%41'`,
serializes to `'%2541=b'`, and re-parsing yields the different name
`'%2541'`.  A collection holding an `Object.prototype` member name (built
with `set('constructor','x')`) fails even harder: re-parsing its
serialization `'constructor=x'` throws `TypeError`. -/
theorem C4_counterexample :
    parse "%41=b".toList = some [("%41".toList, ["b".toList])] ∧
    toString [("%41".toList, ["b".toList])] = "%2541=b".toList ∧
    parse "%2541=b".toList = some [("%2541".toList, ["b".toList])] ∧
    entriesList [("%2541".toList, ["b".toList])] ≠
      entriesList [("%41".toList, ["b".toList])] ∧
    set [] "constructor".toList "x".toList = [("constructor".toList, ["x".toList])] ∧
    toString [("constructor".toList, ["x".toList])] = "constructor=x".toList ∧
    parse "constructor=x".toList = none :=
  ⟨by decide, by decide, by decide, by decide, by decide, by decide, by decide⟩

/-- C4 amended: the round-trip holds on collections whose names are
non-empty, not canonical array-index strings, not names inherited from
`Object.prototype` (re-parsing such a name throws `TypeError` in
`append`), and made only of characters the encode transform leaves
unchanged, and whose value sequences are non-empty with values likewise
non-empty and safe: re-parsing `toString()` rebuilds exactly the same
internal state (hence the same ordered `(name, value)` sequence). -/
theorem C4_roundtrip_on_safe_states (st : State)
    (hnd : (st.map Prod.fst).Nodup)
    (hsafe : ∀ p ∈ st, p.1 ≠ [] ∧ (∀ c ∈ p.1, safeChar c = true) ∧
      isArrayIndex p.1 = false ∧ p.1 ∉ protoNames ∧ p.2 ≠ [] ∧
      ∀ v ∈ p.2, v ≠ [] ∧ ∀ c ∈ v, safeChar c = true) :
    parse (toString st) = some st := by
  have hiter : iterPairs st = st.flatMap (fun p => p.2.map (fun v => (p.1, v))) := by
    have hkeys : ownKeysOrder st = st.map Prod.fst :=
      keys_eq_fst_of_no_idx st (fun k hk => by
        rcases List.mem_map.mp hk with ⟨q, hq, rfl⟩
        exact (hsafe q hq).2.2.1)
    unfold iterPairs
    rw [hkeys]
    exact flatMap_getAll st hnd
  have hsegs : (iterPairs st).map (fun p => encodeURI p.1 ++ '=' :: encodeURI p.2) =
      st.flatMap (fun p => p.2.map (fun v => p.1 ++ '=' :: v)) := by
    rw [hiter, List.map_flatMap]
    show (st.map _).flatten = (st.map _).flatten
    rw [List.map_congr_left]
    intro p hp
    rw [List.map_map]
    apply List.map_congr_left
    intro v hv
    obtain ⟨_, hn2, _, _, _, hvs2⟩ := hsafe p hp
    show encodeURI p.1 ++ '=' :: encodeURI v = p.1 ++ '=' :: v
    rw [encodeURI_safe p.1 hn2, encodeURI_safe v (hvs2 v hv).2]
  have hsegprops : ∀ seg ∈ st.flatMap (fun p => p.2.map (fun v => p.1 ++ '=' :: v)),
      '&' ∉ seg ∧ ∀ c ∈ seg, c ≠ '?' := by
    intro seg hseg
    rw [List.mem_flatMap] at hseg
    obtain ⟨p, hp, hm⟩ := hseg
    rcases List.mem_map.mp hm with ⟨v, hv, rfl⟩
    obtain ⟨_, hn2, _, _, _, hvs2⟩ := hsafe p hp
    constructor
    · intro hc
      rcases List.mem_append.mp hc with hm2 | hm2
      · exact absurd (hn2 '&' hm2) (by decide)
      · rcases List.mem_cons.mp hm2 with he | hm3
        · cases he
        · exact absurd ((hvs2 v hv).2 '&' hm3) (by decide)
    · intro c hc
      rcases List.mem_append.mp hc with hm2 | hm2
      · exact safe_ne c '?' (hn2 c hm2) (by decide)
      · rcases List.mem_cons.mp hm2 with rfl | hm3
        · decide
        · exact safe_ne c '?' ((hvs2 v hv).2 c hm3) (by decide)
  cases st with
  | nil => decide
  | cons p0 rest0 =>
    unfold toString parse
    rw [hsegs]
    rw [stripQuery_eq_self _ (fun c hc => by
      rcases jsJoin_chars '&' _ c hc with rfl | ⟨seg, hseg, hcs⟩
      · decide
      · exact (hsegprops seg hseg).2 c hcs)]
    rw [jsSplit_join '&' _ ?hne (fun seg hseg => (hsegprops seg hseg).1)]
    case hne =>
      intro he
      rw [List.flatMap_cons, List.append_eq_nil] at he
      obtain ⟨hn1, hn2t, _, _, hp2, _⟩ := hsafe p0 (List.mem_cons_self p0 rest0)
      rcases List.map_eq_nil_iff.mp he.1 with hnil
      exact hp2 hnil
    have := parse_entries (p0 :: rest0) [] hnd
      (fun p hp => by
        obtain ⟨h1, h2, _, h3, h4, h5⟩ := hsafe p hp
        exact ⟨h1, h2, h3, h4, h5⟩)
      (fun p hp => rfl)
    rw [this]
    rfl

/-- Witness for C4: a concrete safe collection round-trips exactly. -/
theorem C4_witness :
    parse (toString [("name".toList, ["pxy".toList])]) =
      some [("name".toList, ["pxy".toList])] :=
  C4_roundtrip_on_safe_states _ (by decide) (by decide)

end URLSearch
